import Mathlib

/-!
Shallow Lean embedding of `BACKEND/generate_panels.py` from the
AI-Comic-Crafter repository, together with theorems checking the
specification's claims about `extract_panel_info`, `extract_story_info`
and the art-style selection in `__main__`.

Strings are modelled as `List Char` (Python `str` over the ASCII
fragment the program manipulates).  Python exceptions are modelled with
`Except` / `Option`.  The three regular expressions used by the code
(`# Panel \d+`, `Description:\s*(.+)` with IGNORECASE,
`Text:\s*"([^"]+)"` with IGNORECASE|DOTALL, and `#\s*(\w+)`) are
simple enough that their leftmost, greedy matching semantics is spelled
out directly as recursive functions below.
-/

namespace ComicCrafterAI

/-- whitespace per Python's `\s` and `str.strip` (ASCII fragment):
space, tab, newline, carriage return, vertical tab, form feed. -/
def isPySpace (c : Char) : Bool :=
  c == ' ' || c == '\t' || c == '\n' || c == '\r' || c == '\x0b' || c == '\x0c'

/-- word characters per Python's `\w` (ASCII fragment). -/
def isWordChar (c : Char) : Bool :=
  c.isAlphanum || c == '_'

/-- Python `str.lower` (ASCII fragment). -/
def toLowerL (l : List Char) : List Char := l.map Char.toLower

/-- Python `str.strip()` with no argument: remove leading and trailing
whitespace. -/
def pyStrip (l : List Char) : List Char :=
  ((l.dropWhile isPySpace).reverse.dropWhile isPySpace).reverse

/-- consume the literal pattern `pat` from the head of `l`, comparing
characters with `eqc`; returns the remainder on success. -/
def dropPat (eqc : Char → Char → Bool) : List Char → List Char → Option (List Char)
  | [], l => some l
  | _ :: _, [] => none
  | p :: ps, c :: cs => if eqc p c then dropPat eqc ps cs else none

/-- case-sensitive character comparison (patterns without IGNORECASE). -/
def charEq (a b : Char) : Bool := a == b

/-- case-insensitive character comparison, as `re.IGNORECASE` compares
characters in the ASCII range. -/
def charCI (a b : Char) : Bool := a.toLower == b.toLower

/-! ## `re.split(r"# Panel \d+", text)`  (generate_panels.py line 55) -/

/-- try to match the delimiter regex `# Panel \d+` at the head of `l`:
the literal `"# Panel "` followed by a maximal nonempty run of digits
(greedy `\d+`).  Returns the remainder after the match. -/
def panelDelimRest (l : List Char) : Option (List Char) :=
  match dropPat charEq ("# Panel ".toList) l with
  | none => none
  | some r1 =>
    match r1 with
    | c :: _ => if c.isDigit then some (r1.dropWhile Char.isDigit) else none
    | [] => none

/-- scanner for `re.split`: walk left to right, cutting the text at each
leftmost non-overlapping match of the delimiter.  `acc` holds the current
piece reversed; fuel bounds the recursion (one unit per character, so
`text.length` always suffices; the fuel-exhausted branch keeps the
remaining characters so that the two base cases agree on `[]`). -/
def splitPanelsAux : Nat → List Char → List Char → List (List Char)
  | 0, cs, acc => [acc.reverse ++ cs]
  | _ + 1, [], acc => [acc.reverse]
  | fuel + 1, c :: cs, acc =>
    match panelDelimRest (c :: cs) with
    | some rest => acc.reverse :: splitPanelsAux fuel rest []
    | none => splitPanelsAux fuel cs (c :: acc)

/-- `re.split(r"# Panel \d+", text)`. -/
def splitPanels (text : List Char) : List (List Char) :=
  splitPanelsAux text.length text []

/-! ## `re.search(r"Description:\s*(.+)", block, re.IGNORECASE)`
(generate_panels.py line 60) -/

/-- try to match `Description:\s*(.+)` (IGNORECASE; `.` excludes `'\n'`)
anchored at the head of `l`, returning the captured group.  After the
case-insensitive literal, greedy `\s*` takes the maximal whitespace run;
if a character follows it, it is non-whitespace (hence not `'\n'`) and
`(.+)` greedily captures up to the next newline or the end.  If the rest
is all whitespace, the engine backtracks `\s*` to the last position whose
character is not `'\n'`, and `(.+)` captures from there. -/
def descMatchAt (l : List Char) : Option (List Char) :=
  match dropPat charCI ("description:".toList) l with
  | none => none
  | some rest =>
    match rest.dropWhile isPySpace with
    | _ :: _ => some ((rest.dropWhile isPySpace).takeWhile (fun c => c != '\n'))
    | [] =>
      let trail := (rest.reverse.takeWhile (fun c => c == '\n')).length
      if rest.length ≤ trail then none
      else some ((rest.drop (rest.length - trail - 1)).takeWhile (fun c => c != '\n'))

/-- `re.search`: the leftmost position where the pattern matches wins. -/
def descSearch : List Char → Option (List Char)
  | [] => none
  | c :: cs =>
    match descMatchAt (c :: cs) with
    | some cap => some cap
    | none => descSearch cs

/-! ## `re.findall(r'Text:\s*"([^"]+)"', block, re.IGNORECASE | re.DOTALL)`
(generate_panels.py line 62) -/

/-- try to match `Text:\s*"([^"]+)"` (IGNORECASE; DOTALL is irrelevant as
the pattern has no `.`) at the head of `l`: the case-insensitive literal,
greedy `\s*` (no effective backtracking, since `'"'` is not whitespace),
an opening quote, a maximal nonempty run of non-quote characters
(greedy `[^"]+`, which matches newlines), and a closing quote.  Returns
the captured group and the remainder after the whole match. -/
def textMatchAt (l : List Char) : Option (List Char × List Char) :=
  match dropPat charCI ("text:".toList) l with
  | none => none
  | some r1 =>
    match r1.dropWhile isPySpace with
    | '"' :: r3 =>
      match r3.takeWhile (fun c => c != '"'), r3.dropWhile (fun c => c != '"') with
      | [], _ => none
      | cap, '"' :: r5 => some (cap, r5)
      | _, _ => none
    | _ => none

/-- scanner for `re.findall`: collect the captures of all leftmost
non-overlapping matches, resuming after each match. -/
def textFindAux : Nat → List Char → List (List Char)
  | 0, _ => []
  | _ + 1, [] => []
  | fuel + 1, c :: cs =>
    match textMatchAt (c :: cs) with
    | some (cap, rest) => cap :: textFindAux fuel rest
    | none => textFindAux fuel cs

/-- `re.findall(r'Text:\s*"([^"]+)"', l, re.IGNORECASE | re.DOTALL)`. -/
def textFindall (l : List Char) : List (List Char) :=
  textFindAux l.length l

/-! ## `extract_panel_info` (generate_panels.py lines 52-69) -/

/-- one record of the `panel_info_list`: a Python dict with the two keys
`'Description'` and `'Text'`. -/
structure PanelInfo where
  Description : List Char
  Text : List Char
  deriving DecidableEq, Repr

/-- the body of the `for block in panel_blocks` loop for one block:
`Description` from the first `Description:` match (or the sentinel),
`Text` from all quoted `Text:` captures joined by one space (or the
ellipsis sentinel). -/
def mkPanelInfo (block : List Char) : PanelInfo where
  Description :=
    match descSearch block with
    | some cap => pyStrip cap
    | none => "Unknown scene.".toList
  Text :=
    match textFindall block with
    | [] => "...".toList
    | caps => List.intercalate [' '] caps

/-- the `panel_info_list` built by the loop: one record per block of the
split whose `strip()` is non-empty, in order. -/
def parsedPanels (text : List Char) : List PanelInfo :=
  ((splitPanels text).filter (fun b => !(pyStrip b).isEmpty)).map mkPanelInfo

/-- the `ValueError` message
`f"Expected 6 panels, but got {len(panel_info_list)}. Check Gemini's output."`. -/
def panelErrMsg (n : Nat) : List Char :=
  "Expected 6 panels, but got ".toList ++ (Nat.repr n).toList
    ++ ". Check Gemini's output.".toList

/-- `extract_panel_info`: the parsed list if it has exactly six records,
otherwise the `ValueError`. -/
def extract_panel_info (text : List Char) : Except (List Char) (List PanelInfo) :=
  if (parsedPanels text).length = 6 then Except.ok (parsedPanels text)
  else Except.error (panelErrMsg (parsedPanels text).length)

/-! ## `re.split(r"#\s*(\w+)", text)`  (generate_panels.py line 110) -/

/-- try to match `#\s*(\w+)` at the head of `l`: a hash, greedy `\s*`
(no effective backtracking, since word characters are not whitespace),
and a maximal nonempty run of word characters, which is the capture.
Returns the capture and the remainder after the match. -/
def storyDelimAt (l : List Char) : Option (List Char × List Char) :=
  match l with
  | '#' :: r1 =>
    match (r1.dropWhile isPySpace).takeWhile isWordChar with
    | [] => none
    | w => some (w, (r1.dropWhile isPySpace).dropWhile isWordChar)
  | _ => none

/-- scanner for `re.split` with one capturing group: the pieces between
matches interleaved with the captured group of each match, exactly as
Python builds the `sections` list. -/
def storySplitAux : Nat → List Char → List Char → List (List Char)
  | 0, cs, acc => [acc.reverse ++ cs]
  | _ + 1, [], acc => [acc.reverse]
  | fuel + 1, c :: cs, acc =>
    match storyDelimAt (c :: cs) with
    | some (w, rest) => acc.reverse :: w :: storySplitAux fuel rest []
    | none => storySplitAux fuel cs (c :: acc)

/-- `re.split(r"#\s*(\w+)", text)`. -/
def storySplit (text : List Char) : List (List Char) :=
  storySplitAux text.length text []

/-! ## `extract_story_info` (generate_panels.py lines 106-117) -/

/-- the allow-list `["title", "introduction", "storyline", "climax", "moral"]`. -/
def storyKeys : List (List Char) :=
  ["title".toList, "introduction".toList, "storyline".toList,
   "climax".toList, "moral".toList]

/-- Python dict assignment `d[k] = v` on an insertion-ordered association
list: overwrite in place if the key is present, append otherwise. -/
def dictInsert :
    List (List Char × List Char) → List Char → List Char → List (List Char × List Char)
  | [], k, v => [(k, v)]
  | (k0, v0) :: rest, k, v =>
    if k0 = k then (k0, v) :: rest else (k0, v0) :: dictInsert rest k v

/-- Python dict lookup `d[k]` (as an `Option`). -/
def dictLookup : List (List Char × List Char) → List Char → Option (List Char)
  | [], _ => none
  | (k0, v0) :: rest, k => if k0 = k then some v0 else dictLookup rest k

/-- the loop `for i in range(1, len(sections), 2)` over the tail of the
`sections` list, two elements at a time: `sections[i]` is a heading word,
`sections[i+1]` its content.  A lone trailing element means `sections[i+1]`
would raise `IndexError`, modelled by `none`. -/
def storyLoop :
    List (List Char) → List (List Char × List Char) → Option (List (List Char × List Char))
  | [], acc => some acc
  | [_], _ => none
  | n :: c :: rest, acc =>
    storyLoop rest
      (if toLowerL n ∈ storyKeys then dictInsert acc (toLowerL n) (pyStrip c) else acc)

/-- `extract_story_info`. -/
def extract_story_info (text : List Char) : Option (List (List Char × List Char)) :=
  storyLoop (storySplit text).tail []

/-! ## art-style selection (generate_panels.py lines 126-131) -/

/-- Python `str.capitalize()` (ASCII fragment): first character
upper-cased, all following characters lower-cased. -/
def pyCapitalize : List Char → List Char
  | [] => []
  | c :: rest => c.toUpper :: rest.map Char.toLower

/-- `valid_styles = ["Manga", "Anime", "American", "Belgian"]`. -/
def validStyles : List (List Char) :=
  ["Manga".toList, "Anime".toList, "American".toList, "Belgian".toList]

/-- the art style actually used: `input(...).strip().capitalize()`,
replaced by `"Anime"` when not in the allow-list. -/
def chooseArtStyle (s : List Char) : List Char :=
  let a := pyCapitalize (pyStrip s)
  if a ∈ validStyles then a else "Anime".toList

/-! ## helper notions used by the claim statements -/

/-- `sub` occurs contiguously inside `l` (the sense in which an error
message "contains" a count). -/
def isSubstringOf (sub l : List Char) : Prop := ∃ p q, l = p ++ sub ++ q

/-- flatten a list of (heading, content) pairs into the alternating shape
that `re.split` with one capturing group produces after the leading piece. -/
def flatPairs : List (List Char × List Char) → List (List Char)
  | [] => []
  | (n, c) :: rest => n :: c :: flatPairs rest

/-- one step of the story loop, as a fold over (heading, content) pairs. -/
def storyStep (m : List (List Char × List Char)) (p : List Char × List Char) :
    List (List Char × List Char) :=
  if toLowerL p.1 ∈ storyKeys then dictInsert m (toLowerL p.1) (pyStrip p.2) else m

/-- the recognized dictionary writes performed by the loop, in order:
lower-cased heading and stripped content of each pair whose heading is in
the allow-list. -/
def writesOf (ps : List (List Char × List Char)) : List (List Char × List Char) :=
  ps.filterMap (fun p =>
    if toLowerL p.1 ∈ storyKeys then some (toLowerL p.1, pyStrip p.2) else none)

/-- the value of the last write to key `k` in a list of writes. -/
def lastFind : List (List Char × List Char) → List Char → Option (List Char)
  | [], _ => none
  | (k0, v) :: rest, k =>
    (lastFind rest k).elim (if k0 = k then some v else none) some

/-! ## supporting lemmas -/

theorem filter_keep_of_stripped (bs : List (List Char))
    (h : ∀ b ∈ bs, pyStrip b ≠ []) :
    bs.filter (fun b => !(pyStrip b).isEmpty) = bs := by
  refine List.filter_eq_self.mpr fun b hb => ?_
  cases hs : pyStrip b with
  | nil => exact absurd hs (h b hb)
  | cons x xs => simp [hs]

theorem parsedPanels_of_split (text pre : List Char) (bs : List (List Char))
    (hsplit : splitPanels text = pre :: bs)
    (hpre : pyStrip pre = [])
    (hbs : ∀ b ∈ bs, pyStrip b ≠ []) :
    parsedPanels text = bs.map mkPanelInfo := by
  unfold parsedPanels
  rw [hsplit, List.filter_cons]
  have hc : (!(pyStrip pre).isEmpty) = false := by rw [hpre]; rfl
  rw [hc]
  simp only [Bool.false_eq_true, if_false]
  rw [filter_keep_of_stripped bs hbs]

theorem panelErrMsg_decomp (n : Nat) :
    panelErrMsg n = "Expected ".toList ++ "6".toList ++ (" panels, but got ".toList
      ++ ((Nat.repr n).toList ++ ". Check Gemini's output.".toList)) := by
  have h : "Expected 6 panels, but got ".toList
      = "Expected ".toList ++ ("6".toList ++ " panels, but got ".toList) := by decide
  simp only [panelErrMsg, h, List.append_assoc]

theorem errMsg_has_six (n : Nat) : isSubstringOf ("6".toList) (panelErrMsg n) :=
  ⟨"Expected ".toList,
   " panels, but got ".toList ++ ((Nat.repr n).toList ++ ". Check Gemini's output.".toList),
   by rw [panelErrMsg_decomp]⟩

theorem errMsg_has_count (n : Nat) :
    isSubstringOf ((Nat.repr n).toList) (panelErrMsg n) :=
  ⟨"Expected 6 panels, but got ".toList, ". Check Gemini's output.".toList,
   by simp [panelErrMsg, List.append_assoc]⟩

/-! ## claims C1, C2, C8 -/

/-- C1: for every input text that is well-formed — the `# Panel <digits>`
split yields a leading piece that strips to nothing followed by exactly
six blocks, none of which strips to nothing — `extract_panel_info`
returns (without error) a list of exactly six records, one per block, in
the order the blocks appear in the input. -/
theorem extract_panel_info_six_blocks (text pre : List Char) (bs : List (List Char))
    (hsplit : splitPanels text = pre :: bs)
    (hpre : pyStrip pre = [])
    (hbs : ∀ b ∈ bs, pyStrip b ≠ [])
    (hlen : bs.length = 6) :
    extract_panel_info text = Except.ok (bs.map mkPanelInfo) ∧
    (bs.map mkPanelInfo).length = 6 := by
  have hparsed := parsedPanels_of_split text pre bs hsplit hpre hbs
  have hlen6 : (parsedPanels text).length = 6 := by
    rw [hparsed, List.length_map]; exact hlen
  refine ⟨?_, by rw [List.length_map]; exact hlen⟩
  unfold extract_panel_info
  rw [if_pos hlen6, hparsed]

theorem extract_panel_info_six_blocks_witness :
    extract_panel_info
        ("# Panel 1a# Panel 2b# Panel 3c# Panel 4d# Panel 5e# Panel 6f".toList)
      = Except.ok (["a".toList, "b".toList, "c".toList, "d".toList, "e".toList,
          "f".toList].map mkPanelInfo) ∧
    (["a".toList, "b".toList, "c".toList, "d".toList, "e".toList,
        "f".toList].map mkPanelInfo).length = 6 :=
  extract_panel_info_six_blocks _ []
    ["a".toList, "b".toList, "c".toList, "d".toList, "e".toList, "f".toList]
    (by decide) (by decide) (by decide) (by decide)

/-- C2: whenever the number of parsed panel records differs from six,
`extract_panel_info` raises the `ValueError` instead of returning a
list, and the error message contains both the expected count `6` and the
actual observed count. -/
theorem extract_panel_info_count_mismatch (text : List Char)
    (h : (parsedPanels text).length ≠ 6) :
    extract_panel_info text
        = Except.error (panelErrMsg (parsedPanels text).length) ∧
    isSubstringOf ("6".toList) (panelErrMsg (parsedPanels text).length) ∧
    isSubstringOf ((Nat.repr (parsedPanels text).length).toList)
      (panelErrMsg (parsedPanels text).length) := by
  refine ⟨?_, errMsg_has_six _, errMsg_has_count _⟩
  unfold extract_panel_info
  rw [if_neg h]

theorem extract_panel_info_count_mismatch_witness :
    extract_panel_info ("# Panel 1a".toList)
        = Except.error (panelErrMsg (parsedPanels ("# Panel 1a".toList)).length) ∧
    isSubstringOf ("6".toList)
      (panelErrMsg (parsedPanels ("# Panel 1a".toList)).length) ∧
    isSubstringOf ((Nat.repr (parsedPanels ("# Panel 1a".toList)).length).toList)
      (panelErrMsg (parsedPanels ("# Panel 1a".toList)).length) :=
  extract_panel_info_count_mismatch ("# Panel 1a".toList) (by decide)

/-- C8: a preamble before the first `# Panel <digits>` delimiter that
contains any non-whitespace character is parsed as an additional record;
with six delimited blocks besides, that makes seven records, and the
count-mismatch `ValueError` reports an actual count of 7. -/
theorem extract_panel_info_preamble (text pre : List Char) (bs : List (List Char))
    (hsplit : splitPanels text = pre :: bs)
    (hpre : pyStrip pre ≠ [])
    (hbs : ∀ b ∈ bs, pyStrip b ≠ [])
    (hlen : bs.length = 6) :
    parsedPanels text = mkPanelInfo pre :: bs.map mkPanelInfo ∧
    extract_panel_info text = Except.error (panelErrMsg 7) := by
  have hparsed : parsedPanels text = mkPanelInfo pre :: bs.map mkPanelInfo := by
    unfold parsedPanels
    rw [hsplit, List.filter_cons]
    have hc : (!(pyStrip pre).isEmpty) = true := by
      cases hs : pyStrip pre with
      | nil => exact absurd hs hpre
      | cons x xs => simp [hs]
    rw [hc]
    simp only [if_true]
    rw [filter_keep_of_stripped bs hbs, List.map_cons]
  have hlen7 : (parsedPanels text).length = 7 := by
    rw [hparsed]
    simp [List.length_map, hlen]
  refine ⟨hparsed, ?_⟩
  unfold extract_panel_info
  rw [if_neg (by rw [hlen7]; decide), hlen7]

/-! ## scanning lemmas for `re.search` and `re.findall` -/

theorem descMatchAt_nil : descMatchAt [] = none := by decide

theorem textMatchAt_nil : textMatchAt [] = none := by decide

theorem forall_drop_cons {α β : Type} (f : List α → Option β) (c : α) (cs : List α) :
    (∀ i, f ((c :: cs).drop i) = none) ↔
      f (c :: cs) = none ∧ ∀ i, f (cs.drop i) = none := by
  constructor
  · intro hall
    refine ⟨by simpa using hall 0, fun i => by simpa [List.drop_succ_cons] using hall (i + 1)⟩
  · rintro ⟨h0, hall⟩ i
    cases i with
    | zero => simpa using h0
    | succ j => simpa [List.drop_succ_cons] using hall j

theorem descSearch_eq_none_iff (b : List Char) :
    descSearch b = none ↔ ∀ i, descMatchAt (b.drop i) = none := by
  induction b with
  | nil =>
    simp only [descSearch, List.drop_nil, descMatchAt_nil, implies_true, true_iff]
  | cons c cs ih =>
    rw [forall_drop_cons]
    cases h : descMatchAt (c :: cs) with
    | some cap =>
      simp only [descSearch, h]
      constructor
      · intro hc; exact absurd hc (by simp)
      · rintro ⟨h0, -⟩; exact absurd h0 (by simp)
    | none =>
      simp only [descSearch, h, ih, true_and]

theorem descSearch_leftmost (b cap : List Char) (h : descSearch b = some cap) :
    ∃ i, descMatchAt (b.drop i) = some cap ∧
      ∀ j, j < i → descMatchAt (b.drop j) = none := by
  induction b with
  | nil => simp [descSearch] at h
  | cons c cs ih =>
    cases hm : descMatchAt (c :: cs) with
    | some cap2 =>
      have hcap : cap2 = cap := by
        simp only [descSearch, hm] at h
        exact Option.some.inj h
      exact ⟨0, by rw [List.drop_zero, hm, hcap], fun j hj => absurd hj (Nat.not_lt_zero j)⟩
    | none =>
      have h2 : descSearch cs = some cap := by simpa only [descSearch, hm] using h
      obtain ⟨i, hi, hj⟩ := ih h2
      refine ⟨i + 1, by rwa [List.drop_succ_cons], fun j hlt => ?_⟩
      cases j with
      | zero => rwa [List.drop_zero]
      | succ j2 =>
        rw [List.drop_succ_cons]
        exact hj j2 (Nat.lt_of_succ_lt_succ hlt)

theorem textFindAux_nil_iff (fuel : Nat) :
    ∀ cs : List Char, cs.length ≤ fuel →
      (textFindAux fuel cs = [] ↔ ∀ i, textMatchAt (cs.drop i) = none) := by
  induction fuel with
  | zero =>
    intro cs hcs
    have hnil : cs = [] := List.length_eq_zero.mp (Nat.le_zero.mp hcs)
    subst hnil
    simp only [textFindAux, List.drop_nil, textMatchAt_nil, implies_true, true_iff]
  | succ fuel ih =>
    intro cs hcs
    cases cs with
    | nil =>
      simp only [textFindAux, List.drop_nil, textMatchAt_nil, implies_true, true_iff]
    | cons c cs2 =>
      rw [forall_drop_cons]
      cases hm : textMatchAt (c :: cs2) with
      | some pr =>
        obtain ⟨cap, rest⟩ := pr
        simp only [textFindAux, hm]
        constructor
        · intro hc; exact absurd hc (by simp)
        · rintro ⟨h0, -⟩; exact absurd h0 (by simp)
      | none =>
        have hlen : cs2.length ≤ fuel := by
          simp only [List.length_cons] at hcs
          omega
        simp only [textFindAux, hm, ih cs2 hlen, true_and]

theorem textFindall_nil_iff (b : List Char) :
    textFindall b = [] ↔ ∀ i, textMatchAt (b.drop i) = none :=
  textFindAux_nil_iff b.length b (Nat.le_refl _)

theorem intercalate_cons2 {α : Type} (s x y : List α) (rest : List (List α)) :
    List.intercalate s (x :: y :: rest) = x ++ s ++ List.intercalate s (y :: rest) := by
  simp [List.intercalate, List.intersperse, List.append_assoc]

/-! ## claims C3, C4, C5 -/

/-- C3: in every record built for a processed block, the `Description`
field is the sentinel `"Unknown scene."` exactly when the search for
`Description:\s*(.+)` (IGNORECASE) finds no match anywhere in the block,
and otherwise equals the leftmost match's captured text with surrounding
whitespace stripped. -/
theorem panel_description_field (b : List Char) :
    (descSearch b = none → (mkPanelInfo b).Description = "Unknown scene.".toList) ∧
    (∀ cap, descSearch b = some cap → (mkPanelInfo b).Description = pyStrip cap) ∧
    (descSearch b = none ↔ ∀ i, descMatchAt (b.drop i) = none) ∧
    (∀ cap, descSearch b = some cap →
      ∃ i, descMatchAt (b.drop i) = some cap ∧
        ∀ j, j < i → descMatchAt (b.drop j) = none) := by
  refine ⟨fun h => ?_, fun cap h => ?_, descSearch_eq_none_iff b,
    fun cap h => descSearch_leftmost b cap h⟩
  · simp only [mkPanelInfo, h]
  · simp only [mkPanelInfo, h]

theorem panel_description_field_witness :
    (mkPanelInfo ("no desc here".toList)).Description = "Unknown scene.".toList :=
  (panel_description_field ("no desc here".toList)).1 (by decide)

/-- C4: in every record built for a processed block, the `Text` field is
the ellipsis sentinel `"..."` when `re.findall` for `Text:\s*"([^"]+)"`
(IGNORECASE|DOTALL) finds no quoted occurrence, and the findall result is
empty exactly when the pattern matches at no position of the block. -/
theorem panel_text_default (b : List Char) :
    (textFindall b = [] → (mkPanelInfo b).Text = "...".toList) ∧
    (textFindall b = [] ↔ ∀ i, textMatchAt (b.drop i) = none) := by
  refine ⟨fun h => ?_, textFindall_nil_iff b⟩
  simp only [mkPanelInfo, h]

theorem panel_text_default_witness :
    (mkPanelInfo ("Description: a scene".toList)).Text = "...".toList :=
  (panel_text_default ("Description: a scene".toList)).1 (by decide)

/-- C5: in every record built for a block with two or more quoted
`Text:` occurrences, the `Text` field is the captured quoted contents in
their order of appearance, joined by exactly one space character. -/
theorem panel_text_joined (b : List Char) (x y : List Char) (rest : List (List Char))
    (hcaps : textFindall b = x :: y :: rest) :
    (mkPanelInfo b).Text = List.intercalate [' '] (x :: y :: rest) ∧
    (mkPanelInfo b).Text = x ++ [' '] ++ List.intercalate [' '] (y :: rest) := by
  have hfield : (mkPanelInfo b).Text = List.intercalate [' '] (x :: y :: rest) := by
    simp only [mkPanelInfo, hcaps]
  exact ⟨hfield, by rw [hfield, intercalate_cons2]⟩

theorem panel_text_joined_witness :
    (mkPanelInfo ("Text: \"a\" then Text: \"b\"".toList)).Text
        = List.intercalate [' '] ["a".toList, "b".toList] ∧
    (mkPanelInfo ("Text: \"a\" then Text: \"b\"".toList)).Text
        = "a".toList ++ [' '] ++ List.intercalate [' '] ["b".toList] :=
  panel_text_joined _ ("a".toList) ("b".toList) [] (by decide)

theorem extract_panel_info_preamble_witness :
    parsedPanels
        ("x# Panel 1a# Panel 2b# Panel 3c# Panel 4d# Panel 5e# Panel 6f".toList)
      = mkPanelInfo ("x".toList) :: ["a".toList, "b".toList, "c".toList, "d".toList,
          "e".toList, "f".toList].map mkPanelInfo ∧
    extract_panel_info
        ("x# Panel 1a# Panel 2b# Panel 3c# Panel 4d# Panel 5e# Panel 6f".toList)
      = Except.error (panelErrMsg 7) :=
  extract_panel_info_preamble _ ("x".toList)
    ["a".toList, "b".toList, "c".toList, "d".toList, "e".toList, "f".toList]
    (by decide) (by decide) (by decide) (by decide)

/-! ## lemmas about the story loop and the dict model -/

theorem storyLoop_flatPairs (ps : List (List Char × List Char)) :
    ∀ acc, storyLoop (flatPairs ps) acc = some (ps.foldl storyStep acc) := by
  induction ps with
  | nil => intro acc; rfl
  | cons p rest ih =>
    intro acc
    obtain ⟨n, c⟩ := p
    simp only [flatPairs, storyLoop, List.foldl_cons, ih, storyStep]

theorem foldl_storyStep_writes (ps : List (List Char × List Char)) :
    ∀ acc, ps.foldl storyStep acc
      = (writesOf ps).foldl (fun m kv => dictInsert m kv.1 kv.2) acc := by
  induction ps with
  | nil => intro acc; rfl
  | cons p rest ih =>
    intro acc
    obtain ⟨n, c⟩ := p
    by_cases hk : toLowerL n ∈ storyKeys
    · simp [List.foldl_cons, storyStep, writesOf, List.filterMap_cons, hk, ih,
        List.foldl_cons]
    · simp [List.foldl_cons, storyStep, writesOf, List.filterMap_cons, hk, ih]

theorem dictLookup_insert (m : List (List Char × List Char)) (k v k2 : List Char) :
    dictLookup (dictInsert m k v) k2 = if k2 = k then some v else dictLookup m k2 := by
  induction m with
  | nil =>
    by_cases h : k2 = k
    · subst h; simp [dictInsert, dictLookup]
    · simp [dictInsert, dictLookup, h, Ne.symm h]
  | cons p rest ih =>
    obtain ⟨k0, v0⟩ := p
    by_cases h0 : k0 = k
    · subst h0
      by_cases h2 : k2 = k0
      · subst h2; simp [dictInsert, dictLookup]
      · simp [dictInsert, dictLookup, h2, Ne.symm h2]
    · by_cases h2 : k2 = k0
      · subst h2
        simp [dictInsert, dictLookup, h0, Ne.symm h0]
      · simp [dictInsert, dictLookup, h0, Ne.symm h2, ih]

theorem dictLookup_foldl (ws : List (List Char × List Char)) :
    ∀ m k, dictLookup (ws.foldl (fun m kv => dictInsert m kv.1 kv.2) m) k
      = (lastFind ws k).elim (dictLookup m k) some := by
  induction ws with
  | nil => intro m k; rfl
  | cons p rest ih =>
    intro m k
    obtain ⟨k0, v0⟩ := p
    simp only [List.foldl_cons, lastFind]
    rw [ih, dictLookup_insert]
    cases hl : lastFind rest k with
    | some v2 => simp [Option.elim]
    | none =>
      simp only [Option.elim]
      by_cases h : k = k0
      · subst h; simp
      · simp [h, Ne.symm h]

theorem lastFind_mem (ws : List (List Char × List Char)) (k v : List Char)
    (h : lastFind ws k = some v) : (k, v) ∈ ws := by
  induction ws with
  | nil => simp [lastFind] at h
  | cons p rest ih =>
    obtain ⟨k0, v0⟩ := p
    simp only [lastFind] at h
    cases hl : lastFind rest k with
    | some v2 =>
      rw [hl] at h
      simp only [Option.elim] at h
      exact List.mem_cons_of_mem _ (ih (hl.trans h))
    | none =>
      rw [hl] at h
      simp only [Option.elim] at h
      by_cases hk : k0 = k
      · rw [if_pos hk] at h
        have hv : v0 = v := Option.some.inj h
        subst hv
        subst hk
        exact List.mem_cons_self _ _
      · rw [if_neg hk] at h
        cases h

theorem lastFind_none (ws : List (List Char × List Char)) (k : List Char)
    (h : ∀ p ∈ ws, p.1 ≠ k) : lastFind ws k = none := by
  induction ws with
  | nil => rfl
  | cons p rest ih =>
    obtain ⟨k0, v0⟩ := p
    have h0 : lastFind rest k = none := ih fun q hq => h q (List.mem_cons_of_mem _ hq)
    simp only [lastFind, h0, Option.elim]
    exact if_neg (h (k0, v0) (List.mem_cons_self _ _))

theorem lastFind_isSome_of_mem (ws : List (List Char × List Char)) (k v : List Char)
    (h : (k, v) ∈ ws) : (lastFind ws k).isSome := by
  induction ws with
  | nil => simp at h
  | cons p rest ih =>
    obtain ⟨k0, v0⟩ := p
    simp only [lastFind]
    cases hl : lastFind rest k with
    | some v2 => simp [Option.elim]
    | none =>
      simp only [Option.elim]
      rcases List.mem_cons.mp h with heq | hmem
      · obtain ⟨hk, hv⟩ := Prod.mk.injEq .. |>.mp heq
        rw [if_pos hk.symm]
        simp
      · have hs := ih hmem
        rw [hl] at hs
        simp at hs

theorem lastFind_unique (ws : List (List Char × List Char)) (k v : List Char)
    (hcount : (ws.map Prod.fst).count k = 1) (hmem : (k, v) ∈ ws) :
    lastFind ws k = some v := by
  induction ws with
  | nil => simp at hmem
  | cons p rest ih =>
    obtain ⟨k0, v0⟩ := p
    simp only [List.map_cons, List.count_cons, beq_iff_eq] at hcount
    by_cases hk : k0 = k
    · rw [if_pos hk] at hcount
      have hzero : (rest.map Prod.fst).count k = 0 := by omega
      have hnone : lastFind rest k = none := by
        apply lastFind_none
        intro q hq hq1
        have : k ∈ rest.map Prod.fst := List.mem_map.mpr ⟨q, hq, hq1⟩
        rw [← List.count_pos_iff] at this
        omega
      simp only [lastFind, hnone, Option.elim, if_pos hk]
      rcases List.mem_cons.mp hmem with heq | hmem2
      · obtain ⟨-, hv⟩ := Prod.mk.injEq .. |>.mp heq
        rw [hv]
      · have : k ∈ rest.map Prod.fst := List.mem_map.mpr ⟨(k, v), hmem2, rfl⟩
        rw [← List.count_pos_iff] at this
        omega
    · rw [if_neg hk] at hcount
      rcases List.mem_cons.mp hmem with heq | hmem2
      · obtain ⟨hk2, -⟩ := Prod.mk.injEq .. |>.mp heq
        exact absurd hk2.symm hk
      · have hrec := ih (by omega) hmem2
        simp only [lastFind, hrec, Option.elim]

theorem optElim_none {α : Type} {β : Sort _} (b : β) (f : α → β) :
    (none : Option α).elim b f = b := rfl

theorem optElim_some {α : Type} {β : Sort _} (a : α) (b : β) (f : α → β) :
    (some a).elim b f = f a := rfl

theorem lastFind_cons (k0 v0 : List Char) (rest : List (List Char × List Char))
    (k : List Char) :
    lastFind ((k0, v0) :: rest) k
      = (lastFind rest k).elim (if k0 = k then some v0 else none) some := rfl

theorem lastFind_append (a b : List (List Char × List Char)) (k : List Char) :
    lastFind (a ++ b) k = (lastFind b k).elim (lastFind a k) some := by
  induction a with
  | nil =>
    rw [List.nil_append]
    cases lastFind b k with
    | none => rw [optElim_none]; rfl
    | some v => rw [optElim_some]
  | cons p rest ih =>
    obtain ⟨k0, v0⟩ := p
    rw [List.cons_append, lastFind_cons, ih, lastFind_cons]
    cases lastFind b k with
    | none => simp only [optElim_none]
    | some v => simp only [optElim_some]

theorem writes_keys (ps : List (List Char × List Char)) :
    (writesOf ps).map Prod.fst
      = (ps.map fun p => toLowerL p.1).filter fun k => decide (k ∈ storyKeys) := by
  induction ps with
  | nil => rfl
  | cons p rest ih =>
    obtain ⟨n, c⟩ := p
    simp only [writesOf, List.filterMap_cons] at ih ⊢
    simp only [List.map_cons, List.filter_cons]
    by_cases hk : toLowerL n ∈ storyKeys
    · simp [hk, ih]
    · simp [hk, ih]

theorem storySplitAux_length_odd (fuel : Nat) :
    ∀ cs acc, (storySplitAux fuel cs acc).length % 2 = 1 := by
  induction fuel with
  | zero => intro cs acc; rfl
  | succ fuel ih =>
    intro cs acc
    cases cs with
    | nil => rfl
    | cons c cs2 =>
      cases hm : storyDelimAt (c :: cs2) with
      | some pr =>
        obtain ⟨w, rest⟩ := pr
        simp only [storySplitAux, hm, List.length_cons]
        have := ih rest []
        omega
      | none =>
        simp only [storySplitAux, hm]
        exact ih cs2 (c :: acc)

theorem storyLoop_invariant :
    ∀ (l : List (List Char)) (acc : List (List Char × List Char)),
      l.length % 2 = 0 →
      (∀ k, (dictLookup acc k).isSome → k ∈ storyKeys) →
      ∃ m, storyLoop l acc = some m ∧ ∀ k, (dictLookup m k).isSome → k ∈ storyKeys
  | [], acc, _, hacc => ⟨acc, rfl, hacc⟩
  | [_], _, h, _ => by simp at h
  | n :: c :: rest, acc, h, hacc => by
    have hlen : rest.length % 2 = 0 := by
      simp only [List.length_cons] at h
      omega
    have hacc2 : ∀ k,
        (dictLookup
          (if toLowerL n ∈ storyKeys then dictInsert acc (toLowerL n) (pyStrip c)
           else acc) k).isSome → k ∈ storyKeys := by
      intro k
      by_cases hk : toLowerL n ∈ storyKeys
      · rw [if_pos hk, dictLookup_insert]
        by_cases he : k = toLowerL n
        · intro _; rw [he]; exact hk
        · rw [if_neg he]; exact hacc k
      · rw [if_neg hk]; exact hacc k
    obtain ⟨m, hm, hminv⟩ := storyLoop_invariant rest _ hlen hacc2
    exact ⟨m, hm, hminv⟩

/-! ## claims C6, C9, C10 -/

theorem extract_story_of_split (text pre : List Char)
    (ps : List (List Char × List Char))
    (hsplit : storySplit text = pre :: flatPairs ps) :
    extract_story_info text
      = some ((writesOf ps).foldl (fun m kv => dictInsert m kv.1 kv.2) []) := by
  unfold extract_story_info
  rw [hsplit]
  simp only [List.tail_cons]
  rw [storyLoop_flatPairs, foldl_storyStep_writes]

/-- C6: when the story split yields a leading piece followed by
(heading, content) pairs in which each of the five recognized headings
occurs (lower-cased) exactly once — in any order — `extract_story_info`
returns a mapping whose keys are exactly the five lower-cased headings,
each bound to the whitespace-stripped content following its heading;
headings outside the set contribute no key. -/
theorem extract_story_info_five_headings (text pre : List Char)
    (ps : List (List Char × List Char))
    (hsplit : storySplit text = pre :: flatPairs ps)
    (huniq : ∀ k ∈ storyKeys, ((ps.map fun p => toLowerL p.1).count k) = 1) :
    ∃ m, extract_story_info text = some m ∧
      (∀ k, (dictLookup m k).isSome ↔ k ∈ storyKeys) ∧
      (∀ n c, (n, c) ∈ ps → toLowerL n ∈ storyKeys →
        dictLookup m (toLowerL n) = some (pyStrip c)) := by
  refine ⟨_, extract_story_of_split text pre ps hsplit, ?_, ?_⟩
  · intro k
    rw [dictLookup_foldl]
    constructor
    · intro hs
      cases hl : lastFind (writesOf ps) k with
      | none => rw [hl] at hs; simp [dictLookup, Option.elim] at hs
      | some v =>
        have hmem := lastFind_mem _ _ _ hl
        have hmk : k ∈ (writesOf ps).map Prod.fst :=
          List.mem_map.mpr ⟨(k, v), hmem, rfl⟩
        rw [writes_keys] at hmk
        exact of_decide_eq_true (List.mem_filter.mp hmk).2
    · intro hk
      have hc2 : ((writesOf ps).map Prod.fst).count k = 1 := by
        rw [writes_keys, List.count_filter (by simpa using hk)]
        exact huniq k hk
      have hmemk : k ∈ (writesOf ps).map Prod.fst :=
        List.count_pos_iff.mp (by omega)
      obtain ⟨⟨k2, v⟩, hmem0, hfst⟩ := List.mem_map.mp hmemk
      have hk2 : k2 = k := hfst
      have hmem : (k, v) ∈ writesOf ps := hk2 ▸ hmem0
      have hs := lastFind_isSome_of_mem _ _ _ hmem
      cases hl : lastFind (writesOf ps) k with
      | none => rw [hl] at hs; simp at hs
      | some v2 => simp [Option.elim]
  · intro n c hmem hk
    rw [dictLookup_foldl]
    have hw : (toLowerL n, pyStrip c) ∈ writesOf ps :=
      List.mem_filterMap.mpr ⟨(n, c), hmem, by simp [hk]⟩
    have hc2 : ((writesOf ps).map Prod.fst).count (toLowerL n) = 1 := by
      rw [writes_keys, List.count_filter (by simpa using hk)]
      exact huniq _ hk
    rw [lastFind_unique _ _ _ hc2 hw]
    rfl

theorem extract_story_info_five_headings_witness :
    ∃ m, extract_story_info
        ("# Title\nA\n# Introduction\nB\n# Storyline\nC\n# Climax\nD\n# Moral\nE".toList)
        = some m ∧
      (∀ k, (dictLookup m k).isSome ↔ k ∈ storyKeys) ∧
      (∀ n c,
        (n, c) ∈ [("Title".toList, "\nA\n".toList),
          ("Introduction".toList, "\nB\n".toList), ("Storyline".toList, "\nC\n".toList),
          ("Climax".toList, "\nD\n".toList), ("Moral".toList, "\nE".toList)] →
        toLowerL n ∈ storyKeys → dictLookup m (toLowerL n) = some (pyStrip c)) :=
  extract_story_info_five_headings _ []
    [("Title".toList, "\nA\n".toList), ("Introduction".toList, "\nB\n".toList),
     ("Storyline".toList, "\nC\n".toList), ("Climax".toList, "\nD\n".toList),
     ("Moral".toList, "\nE".toList)]
    (by decide) (by decide)

/-- C9: `extract_story_info` is total: the `re.split` on `#\s*(\w+)`
always produces an odd-length sections list (a leading piece followed by
heading/content pairs), so the paired indexing never goes out of bounds,
the function returns a mapping for every input, and the mapping's keys
always lie in the five-element allow-list. -/
theorem extract_story_info_total (text : List Char) :
    (storySplit text).length % 2 = 1 ∧
    ∃ m, extract_story_info text = some m ∧
      ∀ k, (dictLookup m k).isSome → k ∈ storyKeys := by
  have hodd : (storySplit text).length % 2 = 1 := storySplitAux_length_odd _ _ _
  refine ⟨hodd, ?_⟩
  have htail : (storySplit text).tail.length % 2 = 0 := by
    cases hsp : storySplit text with
    | nil => rw [hsp] at hodd; simp at hodd
    | cons a rest =>
      rw [hsp] at hodd
      simp only [List.length_cons] at hodd
      simp only [List.tail_cons]
      omega
  exact storyLoop_invariant _ [] htail fun k h => by simp [dictLookup] at h

theorem extract_story_info_total_witness :
    (storySplit ("no headings at all".toList)).length % 2 = 1 ∧
    ∃ m, extract_story_info ("no headings at all".toList) = some m ∧
      ∀ k, (dictLookup m k).isSome → k ∈ storyKeys :=
  extract_story_info_total ("no headings at all".toList)

/-- C10: when a recognized heading occurs more than once (case-insensitively),
`extract_story_info` binds that key to the stripped content following the
last occurrence, overwriting the earlier occurrences. -/
theorem extract_story_info_last_heading_wins (text pre n0 c0 : List Char)
    (ps1 ps2 : List (List Char × List Char))
    (hsplit : storySplit text = pre :: flatPairs (ps1 ++ (n0, c0) :: ps2))
    (hkey : toLowerL n0 ∈ storyKeys)
    (_hdup : ∃ p ∈ ps1, toLowerL p.1 = toLowerL n0)
    (hlast : ∀ p ∈ ps2, toLowerL p.1 ≠ toLowerL n0) :
    ∃ m, extract_story_info text = some m ∧
      dictLookup m (toLowerL n0) = some (pyStrip c0) := by
  refine ⟨_, extract_story_of_split text pre _ hsplit, ?_⟩
  rw [dictLookup_foldl]
  have hws : writesOf (ps1 ++ (n0, c0) :: ps2)
      = writesOf ps1 ++ ((toLowerL n0, pyStrip c0) :: writesOf ps2) := by
    unfold writesOf
    rw [List.filterMap_append, List.filterMap_cons]
    simp [hkey]
  rw [hws, lastFind_append]
  have h2 : lastFind (writesOf ps2) (toLowerL n0) = none := by
    apply lastFind_none
    intro p hp
    obtain ⟨⟨n, c⟩, hpm, hf⟩ := List.mem_filterMap.mp hp
    by_cases hn : toLowerL n ∈ storyKeys
    · rw [if_pos hn] at hf
      have hpe := Option.some.inj hf
      rw [← hpe]
      exact hlast (n, c) hpm
    · rw [if_neg hn] at hf
      cases hf
  rw [lastFind_cons, h2, optElim_none, if_pos rfl, optElim_some, optElim_some]

theorem extract_story_info_last_heading_wins_witness :
    ∃ m, extract_story_info ("# Title\nA\n# Title\nB\n# Moral\nC".toList) = some m ∧
      dictLookup m (toLowerL ("Title".toList)) = some (pyStrip ("\nB\n".toList)) :=
  extract_story_info_last_heading_wins _ [] ("Title".toList) ("\nB\n".toList)
    [("Title".toList, "\nA\n".toList)] [("Moral".toList, "\nC".toList)]
    (by decide) (by decide)
    ⟨("Title".toList, "\nA\n".toList), by decide, by decide⟩
    (by decide)

/-! ## claim C7 -/

/-- C7: the art style used for generation is the user's input stripped
of surrounding whitespace and capitalized when that normalized form is
one of Manga, Anime, American, Belgian, and the default Anime
otherwise; in particular the chosen style is always in the allow-list. -/
theorem art_style_selection (s : List Char) :
    chooseArtStyle s ∈ validStyles ∧
    (pyCapitalize (pyStrip s) ∈ validStyles →
      chooseArtStyle s = pyCapitalize (pyStrip s)) ∧
    (pyCapitalize (pyStrip s) ∉ validStyles →
      chooseArtStyle s = "Anime".toList) := by
  simp only [chooseArtStyle]
  by_cases h : pyCapitalize (pyStrip s) ∈ validStyles
  · rw [if_pos h]
    exact ⟨h, fun _ => rfl, fun hn => absurd h hn⟩
  · rw [if_neg h]
    exact ⟨by decide, fun hc => absurd hc h, fun _ => rfl⟩

theorem art_style_selection_witness :
    chooseArtStyle ("  mAnGa ".toList) ∈ validStyles ∧
    chooseArtStyle ("  mAnGa ".toList) = pyCapitalize (pyStrip ("  mAnGa ".toList)) :=
  ⟨(art_style_selection ("  mAnGa ".toList)).1,
   (art_style_selection ("  mAnGa ".toList)).2.1 (by decide)⟩

end ComicCrafterAI
